import Mathlib

/-!
Verification of the OmniLearn document ingestion and vector-retrieval
pipeline: a shallow embedding, in Lean 4, of the core functions of
`workers/embedder.py`, `api/routers/search.py` and `core/models.py`,
together with proofs of the specified properties.

Conventions of the embedding:
* Python strings are `List Char`; machine floats in embedding vectors are
  abstracted to `Int` (no claim depends on float arithmetic).
* External collaborators (sentence-transformers model, Qdrant server,
  FastAPI request validation, the CommonMark renderer) are modelled from
  their documented behaviour as used by the code; each such definition
  says so in its doc comment.
* Stateful code is embedded as explicit state passing; the two-phase
  write of `ingest_file` is embedded as a list of observable store
  states, so temporal claims become statements about every state in the
  list.
-/

namespace OmniLearn

/-! ### Configuration constants (`workers/embedder.py` lines 22-25) -/

/-- `COLLECTION = "doc_chunks"` -/
def COLLECTION : String := "doc_chunks"

/-- `DIM = 384` -/
def DIM : Nat := 384

/-- `CHUNK = 512` — characters per chunk. -/
def CHUNK : Nat := 512

/-! ### The Chunker: `_chunks` (`workers/embedder.py` lines 75-78)

```python
def _chunks(text: str) -> Iterable[str]:
    clean = re.sub(r"\s+", " ", text).strip()
    for i in range(0, len(clean), CHUNK):
        yield clean[i : i + CHUNK]
```
-/

/-- Python's `\s` character class, restricted to its ASCII members
(space, tab, newline, carriage return, vertical tab, form feed).
The claims are insensitive to which exact characters count as
whitespace, only to runs being collapsed. -/
def pySpace (c : Char) : Bool :=
  c = ' ' || c = '\t' || c = '\n' || c = '\r' || c = '\x0b' || c = '\x0c'

/-- `re.sub(r"\s+", " ", text)`: every maximal run of whitespace is
replaced by a single space.  The boolean argument records whether the
previous character belonged to a whitespace run whose single `' '` has
already been emitted. -/
def collapse : List Char → Bool → List Char
  | [], _ => []
  | c :: cs, prev =>
    if pySpace c then
      if prev then collapse cs true else ' ' :: collapse cs true
    else
      c :: collapse cs false

/-- Python `str.strip()`: drop leading and trailing whitespace. -/
def pyStrip (l : List Char) : List Char :=
  ((l.dropWhile (fun c => pySpace c)).reverse.dropWhile (fun c => pySpace c)).reverse

/-- The local `clean` of `_chunks`: `re.sub(r"\s+", " ", text).strip()`. -/
def clean (text : List Char) : List Char :=
  pyStrip (collapse text false)

/-- The slicing loop of `_chunks`:
`for i in range(0, len(clean), CHUNK): yield clean[i : i + CHUNK]`.
The `fuel` argument bounds the remaining length (each step consumes at
least one character since `CHUNK > 0`), making the recursion structural
so that concrete chunkings evaluate inside the kernel;
`sliceChunks_cons` recovers the fuel-free unfolding. -/
def sliceChunksGo : Nat → List Char → List (List Char)
  | _, [] => []
  | 0, _ :: _ => []
  | fuel + 1, c :: cs =>
    ((c :: cs).take CHUNK) :: sliceChunksGo fuel ((c :: cs).drop CHUNK)

/-- The slicing loop of `_chunks`, started with sufficient fuel. -/
def sliceChunks (l : List Char) : List (List Char) :=
  sliceChunksGo l.length l

theorem sliceChunksGo_nil (fuel : Nat) : sliceChunksGo fuel [] = [] := by
  cases fuel <;> rfl

theorem sliceChunksGo_congr : ∀ (f1 : Nat) (f2 : Nat) (l : List Char),
    l.length ≤ f1 → l.length ≤ f2 →
      sliceChunksGo f1 l = sliceChunksGo f2 l := by
  intro f1
  induction f1 with
  | zero =>
    intro f2 l h1 _
    have : l = [] := List.eq_nil_of_length_eq_zero (Nat.le_zero.mp h1)
    subst this
    rw [sliceChunksGo_nil, sliceChunksGo_nil]
  | succ f ih =>
    intro f2 l h1 h2
    cases l with
    | nil => rw [sliceChunksGo_nil, sliceChunksGo_nil]
    | cons c cs =>
      cases f2 with
      | zero => simp at h2
      | succ g =>
        show ((c :: cs).take CHUNK) :: sliceChunksGo f ((c :: cs).drop CHUNK)
          = ((c :: cs).take CHUNK) :: sliceChunksGo g ((c :: cs).drop CHUNK)
        have hC : CHUNK = 512 := rfl
        have hlen : ((c :: cs).drop CHUNK).length ≤ f := by
          rw [List.length_drop]
          simp only [List.length_cons] at h1 ⊢
          omega
        have hlen2 : ((c :: cs).drop CHUNK).length ≤ g := by
          rw [List.length_drop]
          simp only [List.length_cons] at h2 ⊢
          omega
        rw [ih g _ hlen hlen2]

/-- `_chunks(text)`, materialised as a list. -/
def _chunks (text : List Char) : List (List Char) :=
  sliceChunks (clean text)

/-! #### Chunker lemmas -/

theorem sliceChunks_nil : sliceChunks [] = [] := rfl

theorem drop_chunk_length_le (c : Char) (cs : List Char) (f : Nat)
    (h : (c :: cs).length ≤ f + 1) : ((c :: cs).drop CHUNK).length ≤ f := by
  have hC : CHUNK = 512 := rfl
  rw [List.length_drop]
  simp only [List.length_cons] at h ⊢
  omega

theorem sliceChunks_cons (c : Char) (cs : List Char) :
    sliceChunks (c :: cs) =
      ((c :: cs).take CHUNK) :: sliceChunks ((c :: cs).drop CHUNK) := by
  show ((c :: cs).take CHUNK) :: sliceChunksGo cs.length ((c :: cs).drop CHUNK)
    = ((c :: cs).take CHUNK)
      :: sliceChunksGo ((c :: cs).drop CHUNK).length ((c :: cs).drop CHUNK)
  rw [sliceChunksGo_congr cs.length ((c :: cs).drop CHUNK).length
    ((c :: cs).drop CHUNK) (drop_chunk_length_le c cs cs.length (by simp))
    le_rfl]

/-- Concatenating the chunks reconstructs the sliced string. -/
theorem sliceChunksGo_flatten : ∀ (fuel : Nat) (l : List Char),
    l.length ≤ fuel → (sliceChunksGo fuel l).flatten = l := by
  intro fuel
  induction fuel with
  | zero =>
    intro l h
    have hl : l = [] := List.eq_nil_of_length_eq_zero (Nat.le_zero.mp h)
    subst hl
    rfl
  | succ f ih =>
    intro l h
    cases l with
    | nil => rfl
    | cons c cs =>
      show (((c :: cs).take CHUNK)
        :: sliceChunksGo f ((c :: cs).drop CHUNK)).flatten = c :: cs
      rw [List.flatten_cons, ih _ (drop_chunk_length_le c cs f h),
        List.take_append_drop]

theorem sliceChunks_flatten (l : List Char) : (sliceChunks l).flatten = l :=
  sliceChunksGo_flatten l.length l le_rfl

/-- Every chunk has length at most `CHUNK`. -/
theorem sliceChunksGo_length_le : ∀ (fuel : Nat) (l : List Char),
    l.length ≤ fuel → ∀ c ∈ sliceChunksGo fuel l, c.length ≤ CHUNK := by
  intro fuel
  induction fuel with
  | zero =>
    intro l h
    have hl : l = [] := List.eq_nil_of_length_eq_zero (Nat.le_zero.mp h)
    subst hl
    simp [sliceChunksGo_nil]
  | succ f ih =>
    intro l h
    cases l with
    | nil => simp [sliceChunksGo_nil]
    | cons c cs =>
      show ∀ d ∈ ((c :: cs).take CHUNK)
        :: sliceChunksGo f ((c :: cs).drop CHUNK), d.length ≤ CHUNK
      intro d hd
      rcases List.mem_cons.mp hd with h1 | h1
      · subst h1; exact List.length_take_le _ _
      · exact ih _ (drop_chunk_length_le c cs f h) d h1

theorem sliceChunks_length_le (l : List Char) :
    ∀ c ∈ sliceChunks l, c.length ≤ CHUNK :=
  sliceChunksGo_length_le l.length l le_rfl

theorem sliceChunks_eq_nil_iff (l : List Char) : sliceChunks l = [] ↔ l = [] := by
  cases l with
  | nil => simp [sliceChunks_nil]
  | cons c cs => rw [sliceChunks_cons]; simp

theorem sliceChunksGo_ne_nil (fuel : Nat) (c : Char) (cs : List Char)
    (h : (c :: cs).length ≤ fuel) : sliceChunksGo fuel (c :: cs) ≠ [] := by
  cases fuel with
  | zero => simp at h
  | succ f =>
    show ((c :: cs).take CHUNK) :: sliceChunksGo f ((c :: cs).drop CHUNK) ≠ []
    simp

/-- Every chunk except possibly the last has length exactly `CHUNK`. -/
theorem sliceChunksGo_dropLast_length : ∀ (fuel : Nat) (l : List Char),
    l.length ≤ fuel →
      ∀ c ∈ (sliceChunksGo fuel l).dropLast, c.length = CHUNK := by
  intro fuel
  induction fuel with
  | zero =>
    intro l h
    have hl : l = [] := List.eq_nil_of_length_eq_zero (Nat.le_zero.mp h)
    subst hl
    simp [sliceChunksGo_nil]
  | succ f ih =>
    intro l h
    cases l with
    | nil => simp [sliceChunksGo_nil]
    | cons c cs =>
      show ∀ d ∈ (((c :: cs).take CHUNK)
        :: sliceChunksGo f ((c :: cs).drop CHUNK)).dropLast, d.length = CHUNK
      by_cases hrest : (c :: cs).drop CHUNK = []
      · rw [hrest, sliceChunksGo_nil]
        simp
      · cases hd : (c :: cs).drop CHUNK with
        | nil => exact absurd hd hrest
        | cons r rs =>
          have hrs : (r :: rs).length ≤ f := by
            rw [← hd]
            exact drop_chunk_length_le c cs f h
          have hne : sliceChunksGo f (r :: rs) ≠ [] :=
            sliceChunksGo_ne_nil f r rs hrs
          intro d hdm
          rw [List.dropLast_cons_of_ne_nil hne] at hdm
          rcases List.mem_cons.mp hdm with h1 | h1
          · subst h1
            have hlen : CHUNK < (c :: cs).length := by
              rcases Nat.lt_or_ge CHUNK (c :: cs).length with h2 | h2
              · exact h2
              · exact absurd (List.drop_eq_nil_of_le h2) hrest
            rw [List.length_take]
            simp only [List.length_cons] at hlen ⊢
            omega
          · exact ih _ hrs d h1

theorem sliceChunks_dropLast_length (l : List Char) :
    ∀ c ∈ (sliceChunks l).dropLast, c.length = CHUNK :=
  sliceChunksGo_dropLast_length l.length l le_rfl

/-- Number of chunks: `⌈len / CHUNK⌉`, phrased for nonempty input. -/
theorem sliceChunksGo_length : ∀ (fuel : Nat) (l : List Char),
    l.length ≤ fuel → l ≠ [] →
      (sliceChunksGo fuel l).length = (l.length - 1) / CHUNK + 1 := by
  intro fuel
  induction fuel with
  | zero =>
    intro l h hne
    exact absurd (List.eq_nil_of_length_eq_zero (Nat.le_zero.mp h)) hne
  | succ f ih =>
    intro l h hne
    cases l with
    | nil => exact absurd rfl hne
    | cons c cs =>
      show (((c :: cs).take CHUNK)
        :: sliceChunksGo f ((c :: cs).drop CHUNK)).length
        = ((c :: cs).length - 1) / CHUNK + 1
      have hC : CHUNK = 512 := rfl
      by_cases hrest : (c :: cs).drop CHUNK = []
      · have hlen : (c :: cs).length - CHUNK = 0 := by
          have h2 := congrArg List.length hrest
          simpa [List.length_drop] using h2
        rw [hrest, sliceChunksGo_nil]
        simp only [List.length_cons, List.length_singleton, List.length_nil]
          at hlen ⊢
        rw [hC] at hlen ⊢
        omega
      · have hlen : CHUNK < (c :: cs).length := by
          rcases Nat.lt_or_ge CHUNK (c :: cs).length with h2 | h2
          · exact h2
          · exact absurd (List.drop_eq_nil_of_le h2) hrest
        rw [List.length_cons,
          ih _ (drop_chunk_length_le c cs f h) hrest, List.length_drop]
        simp only [List.length_cons] at hlen ⊢
        rw [hC] at hlen ⊢
        omega

theorem sliceChunks_length (l : List Char) (h : l ≠ []) :
    (sliceChunks l).length = (l.length - 1) / CHUNK + 1 :=
  sliceChunksGo_length l.length l le_rfl h

/-! #### Spec-side characterization of whitespace normalization

The spec (§4.2) describes `clean` as: "collapse all whitespace runs to a
single space and trim leading/trailing whitespace".  Equivalently, the
result is the list of maximal non-whitespace runs ("words") joined by
single spaces.  `wordsOfSpec` and `joinWords` are that spec-side
description; `clean_eq_joinWords` is the refinement proof. -/

theorem length_dropWhile_le' (p : Char → Bool) (l : List Char) :
    (l.dropWhile p).length ≤ l.length := by
  induction l with
  | nil => simp
  | cons c cs ih =>
    rw [List.dropWhile_cons]
    split
    · simp only [List.length_cons]
      omega
    · simp

/-- The maximal non-whitespace runs of the input, in order (spec-side). -/
def wordsOfSpec : List Char → List (List Char)
  | [] => []
  | c :: cs =>
    if pySpace c then wordsOfSpec cs
    else (c :: cs.takeWhile (fun d => !pySpace d)) ::
      wordsOfSpec (cs.dropWhile (fun d => !pySpace d))
termination_by l => l.length
decreasing_by
  · simp
  · have := length_dropWhile_le' (fun d => !pySpace d) cs
    simp only [List.length_cons]
    omega

/-- Join words with single spaces (spec-side). -/
def joinWords : List (List Char) → List Char
  | [] => []
  | [w] => w
  | w :: ws => w ++ ' ' :: joinWords ws

/-- Strip trailing whitespace only. -/
def rstripSp (l : List Char) : List Char :=
  (l.reverse.dropWhile (fun c => pySpace c)).reverse

/-- Strip leading whitespace only. -/
def lstripSp (l : List Char) : List Char :=
  l.dropWhile (fun c => pySpace c)

theorem pyStrip_eq (l : List Char) : pyStrip l = rstripSp (lstripSp l) := rfl

/-- The output of `collapse · true` never starts with whitespace. -/
theorem collapse_true_head (l : List Char) :
    collapse l true = [] ∨
      ∃ d ds, collapse l true = d :: ds ∧ pySpace d = false := by
  induction l with
  | nil => left; rfl
  | cons c cs ih =>
    by_cases h : pySpace c
    · simpa [collapse, h] using ih
    · right
      exact ⟨c, collapse cs false, by simp [collapse, h], by simpa using h⟩

theorem lstripSp_collapse_true (l : List Char) :
    lstripSp (collapse l true) = collapse l true := by
  rcases collapse_true_head l with h | ⟨d, ds, h, hd⟩
  · rw [h]; rfl
  · rw [h, lstripSp, List.dropWhile_cons_of_neg (by simp [hd])]

/-- Dropping leading whitespace from `collapse l false` gives `collapse l true`. -/
theorem lstripSp_collapse_false (l : List Char) :
    lstripSp (collapse l false) = collapse l true := by
  cases l with
  | nil => rfl
  | cons c cs =>
    by_cases h : pySpace c
    · show lstripSp (collapse (c :: cs) false) = collapse (c :: cs) true
      rw [show collapse (c :: cs) false = ' ' :: collapse cs true by simp [collapse, h],
        show collapse (c :: cs) true = collapse cs true by simp [collapse, h]]
      rw [lstripSp, List.dropWhile_cons_of_pos (by simp [pySpace])]
      exact lstripSp_collapse_true cs
    · rw [show collapse (c :: cs) false = c :: collapse cs false by simp [collapse, h],
        show collapse (c :: cs) true = c :: collapse cs false by simp [collapse, h]]
      rw [lstripSp, List.dropWhile_cons_of_neg (by simpa using h)]

/-- `clean` in terms of `collapse · true` and trailing strip only. -/
theorem clean_eq_rstrip (l : List Char) :
    clean l = rstripSp (collapse l true) := by
  show pyStrip (collapse l false) = _
  rw [pyStrip_eq, lstripSp_collapse_false]

theorem dropWhile_eq_self_of_all (p : Char → Bool) (l : List Char)
    (h : ∀ c ∈ l, p c = false) : l.dropWhile p = l := by
  cases l with
  | nil => rfl
  | cons c cs => exact List.dropWhile_cons_of_neg (by simp [h c (by simp)])

/-- `rstripSp` distributes over a prefix of non-whitespace characters. -/
theorem rstripSp_append_of_nonspace (w x : List Char)
    (hw : ∀ c ∈ w, pySpace c = false) :
    rstripSp (w ++ x) = w ++ rstripSp x := by
  rw [rstripSp, List.reverse_append, List.dropWhile_append]
  by_cases hx : (x.reverse.dropWhile fun c => pySpace c).isEmpty
  · rw [if_pos hx]
    rw [dropWhile_eq_self_of_all _ _ (fun c hc => hw c (by simpa using hc))]
    have hx' : rstripSp x = [] := by
      rw [rstripSp, List.isEmpty_iff.mp hx]; rfl
    rw [hx', List.reverse_reverse, List.append_nil]
  · rw [if_neg hx, List.reverse_append, List.reverse_reverse]
    rfl

/-- `rstripSp` on a leading space: kept iff something non-blank follows. -/
theorem rstripSp_space_cons (x : List Char) :
    rstripSp (' ' :: x) =
      if rstripSp x = [] then [] else ' ' :: rstripSp x := by
  rw [show (' ' :: x : List Char) = [' '] ++ x from rfl]
  rw [rstripSp, List.reverse_append, List.dropWhile_append]
  by_cases hx : (x.reverse.dropWhile fun c => pySpace c).isEmpty
  · have hx' : rstripSp x = [] := by
      rw [rstripSp, List.isEmpty_iff.mp hx]; rfl
    rw [if_pos hx, hx', if_pos rfl]
    simp [pySpace]
  · have hx' : rstripSp x ≠ [] := by
      rw [rstripSp]
      intro hcon
      rw [← List.reverse_eq_nil_iff, ← List.isEmpty_iff] at hcon
      exact hx (by simpa using hcon)
    rw [if_neg hx, if_neg hx', List.reverse_append, List.reverse_reverse]
    rfl

theorem collapse_append_of_nonspace (w x : List Char)
    (hw : ∀ c ∈ w, pySpace c = false) :
    collapse (w ++ x) false = w ++ collapse x false := by
  induction w with
  | nil => rfl
  | cons c cs ih =>
    have hc : pySpace c = false := hw c (by simp)
    rw [List.cons_append,
      show collapse (c :: (cs ++ x)) false = c :: collapse (cs ++ x) false by
        simp [collapse, hc]]
    rw [ih (fun d hd => hw d (by simp [hd])), List.cons_append]

/-- Every word produced by `wordsOfSpec` is nonempty. -/
theorem wordsOfSpec_ne_nil (l : List Char) :
    ∀ w ∈ wordsOfSpec l, w ≠ [] := by
  induction l using wordsOfSpec.induct with
  | case1 => simp [wordsOfSpec]
  | case2 c cs h ih =>
    rw [wordsOfSpec, if_pos h]
    exact ih
  | case3 c cs h ih =>
    rw [wordsOfSpec, if_neg h]
    intro w hw
    rcases List.mem_cons.mp hw with h1 | h1
    · subst h1; simp
    · exact ih w h1

theorem joinWords_eq_nil_iff (ws : List (List Char))
    (hne : ∀ w ∈ ws, w ≠ []) : joinWords ws = [] ↔ ws = [] := by
  cases ws with
  | nil => simp [joinWords]
  | cons w ws' =>
    cases ws' with
    | nil =>
      simp only [joinWords]
      have := hne w (by simp)
      simp [this]
    | cons w2 ws'' =>
      simp only [joinWords]
      constructor
      · intro hcon
        rcases List.append_eq_nil.mp hcon with ⟨_, h2⟩
        exact absurd h2 (by simp)
      · intro hcon; exact absurd hcon (by simp)

theorem head_dropWhile_false (p : Char → Bool) (l : List Char) (r : Char)
    (rs : List Char) (h : l.dropWhile p = r :: rs) : p r = false := by
  induction l with
  | nil => simp at h
  | cons c cs ih =>
    rw [List.dropWhile_cons] at h
    split at h
    · exact ih h
    · rename_i hc
      injection h with h1 _
      subst h1
      simpa using hc

/-- The whitespace-collapsed, trimmed text is exactly the words joined by
single spaces: `clean` refines the spec's description of normalization. -/
theorem clean_eq_joinWords (l : List Char) :
    clean l = joinWords (wordsOfSpec l) := by
  rw [clean_eq_rstrip]
  induction l using wordsOfSpec.induct with
  | case1 =>
    rw [wordsOfSpec]
    rfl
  | case2 c cs h ih =>
    rw [wordsOfSpec, if_pos h, show collapse (c :: cs) true = collapse cs true by
      simp [collapse, h]]
    exact ih
  | case3 c cs h ih =>
    rw [wordsOfSpec, if_neg h]
    have hsp : pySpace c = false := by simpa using h
    rw [show collapse (c :: cs) true = c :: collapse cs false by simp [collapse, hsp]]
    have hw : ∀ d ∈ cs.takeWhile (fun d => !pySpace d), pySpace d = false := by
      intro d hd
      have := List.mem_takeWhile_imp hd
      simpa using this
    have hsplit : cs = cs.takeWhile (fun d => !pySpace d) ++
        cs.dropWhile (fun d => !pySpace d) :=
      (List.takeWhile_append_dropWhile (fun d => !pySpace d) cs).symm
    conv_lhs => rw [hsplit]
    rw [collapse_append_of_nonspace _ _ hw]
    rw [show (c :: (cs.takeWhile (fun d => !pySpace d) ++
        collapse (cs.dropWhile (fun d => !pySpace d)) false) : List Char) =
        (c :: cs.takeWhile (fun d => !pySpace d)) ++
        collapse (cs.dropWhile (fun d => !pySpace d)) false from rfl]
    rw [rstripSp_append_of_nonspace _ _ (by
      intro d hd
      rcases List.mem_cons.mp hd with h1 | h1
      · subst h1; exact hsp
      · exact hw d h1)]
    cases hrest : cs.dropWhile (fun d => !pySpace d) with
    | nil =>
      rw [show wordsOfSpec ([] : List Char) = [] from by rw [wordsOfSpec]]
      rw [show rstripSp (collapse [] false) = [] from rfl]
      simp [joinWords]
    | cons r rs =>
      have hr : pySpace r = true := by
        have h2 := head_dropWhile_false (fun d => !pySpace d) cs r rs hrest
        simpa using h2
      rw [show collapse (r :: rs) false = ' ' :: collapse rs true by
        simp [collapse, hr]]
      rw [rstripSp_space_cons]
      rw [hrest] at ih
      rw [show collapse (r :: rs) true = collapse rs true by
        simp [collapse, hr]] at ih
      rw [show wordsOfSpec (r :: rs) = wordsOfSpec rs by
        rw [wordsOfSpec, if_pos hr]] at ih ⊢
      rw [ih]
      have hnil := joinWords_eq_nil_iff (wordsOfSpec rs) (wordsOfSpec_ne_nil rs)
      by_cases hws : wordsOfSpec rs = []
      · rw [hws]
        simp [joinWords]
      · rw [if_neg (fun hcon => hws (hnil.mp hcon))]
        cases hws' : wordsOfSpec rs with
        | nil => exact absurd hws' hws
        | cons w2 ws2 =>
          simp [joinWords]

/-- C3: For every input string, concatenating the Chunker's output chunks
in order reconstructs exactly the whitespace-normalized input — `clean`,
which collapses every whitespace run to a single space and trims both
ends, proved equal to the maximal non-whitespace runs of the input joined
by single spaces — with no characters dropped or duplicated across chunk
boundaries (this is what the flatten equality states: the chunks are
consecutive, non-overlapping and in left-to-right order); every chunk has
length at most `CHUNK`, and every chunk except possibly the final one has
length exactly `CHUNK`. -/
theorem chunks_reconstruct_normalized_input (text : List Char) :
    (_chunks text).flatten = clean text
    ∧ clean text = joinWords (wordsOfSpec text)
    ∧ (∀ c ∈ _chunks text, c.length ≤ CHUNK)
    ∧ (∀ c ∈ (_chunks text).dropLast, c.length = CHUNK) :=
  ⟨sliceChunks_flatten _, clean_eq_joinWords _,
   sliceChunks_length_le _, sliceChunks_dropLast_length _⟩

/-! ### Data model

`core/models.py` lines 120-126:
```python
class Embedding(SQLModel, table=True):
    id: str = Field(default_factory=_uuid, primary_key=True)
    object_type: str
    object_id: str
    vector: bytes = Field(sa_column=Column("vector", LargeBinary))
    dim: int
    created_at: datetime = Field(default_factory=datetime.utcnow)
```
UUIDs are abstracted to `Nat` drawn from an external stream (`uuid.uuid4`
produces a fresh value per call); `datetime` timestamps are abstracted to
`Nat`. -/

/-- One Metadata Store row (the `Embedding` SQLModel table). -/
structure Embedding where
  id : Nat
  object_type : String
  object_id : String
  vector : List UInt8
  dim : Nat
  created_at : Nat
deriving Repr, DecidableEq

/-- The sentence-transformers model.  Modelled from the spec (§4.3):
an Embedding Provider maps text to a fixed-dimension numeric vector;
`dim` is the model's actual output vector length, `encode` its
`model.encode` operation (floats abstracted to `Int`). -/
structure SentenceTransformer where
  dim : Nat
  encode : List Char → List Int

/-- `_get_model` (`workers/embedder.py` lines 39-44): return the cached
model, loading it on first use.
```python
def _get_model():
    global _model
    if _model is None:
        from sentence_transformers import SentenceTransformer
        _model = SentenceTransformer("/models/all-MiniLM-L6-v2")
    return _model
```
`loaded` is the `_model` global, `disk` the model that loading from
`/models/all-MiniLM-L6-v2` would produce.  The body performs no check of
any kind on the loaded model, so the embedding has no error outcome
other than the (unmodelled) I/O failure of loading itself; the
`Except` result type records that no configuration error is raised. -/
def _get_model (loaded : Option SentenceTransformer) (disk : SentenceTransformer) :
    Except String (Option SentenceTransformer × SentenceTransformer) :=
  match loaded with
  | some m => .ok (some m, m)
  | none => .ok (some disk, disk)

/-! ### Ingestion: `ingest_file` (`workers/embedder.py` lines 84-131)

The per-chunk loop:
```python
for chunk in _chunks(text):
    vec = _get_model().encode(chunk).tolist()
    eid = str(uuid.uuid4())
    embeds.append(Embedding(id=eid, object_type="doc_chunk",
                            object_id=f"{slug}:{path.name}",
                            vector=b"", dim=len(vec)))
    vecs.append(vec)
    payloads.append({"text": chunk, "source": path.name, "domain": slug})
```
`uuidGen i` is the value the `i`-th call of `uuid.uuid4()` returns and
`now` the row-creation timestamp.  A payload dict is a key-value list. -/

/-- The loop body of `ingest_file`, iterated over the chunks, starting at
the `i`-th draw from the UUID stream.  Returns `(vecs, embeds, payloads)`
in the order the Python lists are built. -/
def ingestLoop (m : SentenceTransformer) (uuidGen : Nat → Nat) (now : Nat)
    (pathName slug : String) :
    Nat → List (List Char) →
      List (List Int) × List Embedding × List (List (String × String))
  | _, [] => ([], [], [])
  | i, chunk :: rest =>
    let vec := m.encode chunk
    let eid := uuidGen i
    let e : Embedding :=
      { id := eid, object_type := "doc_chunk",
        object_id := slug ++ ":" ++ pathName,
        vector := [], dim := vec.length, created_at := now }
    let payload := [("text", chunk.asString), ("source", pathName),
                    ("domain", slug)]
    let rec_ := ingestLoop m uuidGen now pathName slug (i + 1) rest
    (vec :: rec_.1, e :: rec_.2.1, payload :: rec_.2.2)

/-- The `vecs` list built by `ingest_file` for extracted text `text`. -/
def ingestVecs (m : SentenceTransformer) (uuidGen : Nat → Nat) (now : Nat)
    (pathName slug : String) (text : List Char) : List (List Int) :=
  (ingestLoop m uuidGen now pathName slug 0 (_chunks text)).1

/-- The `embeds` list (Metadata Store rows) built by `ingest_file`. -/
def ingestEmbeds (m : SentenceTransformer) (uuidGen : Nat → Nat) (now : Nat)
    (pathName slug : String) (text : List Char) : List Embedding :=
  (ingestLoop m uuidGen now pathName slug 0 (_chunks text)).2.1

/-- The `payloads` list built by `ingest_file`. -/
def ingestPayloads (m : SentenceTransformer) (uuidGen : Nat → Nat) (now : Nat)
    (pathName slug : String) (text : List Char) :
    List (List (String × String)) :=
  (ingestLoop m uuidGen now pathName slug 0 (_chunks text)).2.2

/-- `ids = [e.id for e in embeds]`. -/
def ingestIds (m : SentenceTransformer) (uuidGen : Nat → Nat) (now : Nat)
    (pathName slug : String) (text : List Char) : List Nat :=
  (ingestEmbeds m uuidGen now pathName slug text).map (fun e => e.id)

/-- The entries handed to `upload_collection(vectors=vecs,
payload=payloads, ids=ids)`: one `(id, vector, payload)` triple per
chunk, zipped positionally exactly as the Qdrant client does. -/
def ingestUploadEntries (m : SentenceTransformer) (uuidGen : Nat → Nat)
    (now : Nat) (pathName slug : String) (text : List Char) :
    List (Nat × List Int × List (String × String)) :=
  (ingestIds m uuidGen now pathName slug text).zip
    ((ingestVecs m uuidGen now pathName slug text).zip
      (ingestPayloads m uuidGen now pathName slug text))

/-- The two durable stores `ingest_file` writes: the Metadata Store
(Postgres `embedding` table) and the Vector Index (Qdrant collection,
entries `(id, vector, payload)`). -/
structure World where
  meta : List Embedding
  qdrant : List (Nat × List Int × List (String × String))
deriving Repr, DecidableEq

/-- How far an `ingest_file` invocation got: the metadata transaction
failed (rolled back, nothing written), the vector upsert failed after the
transaction committed, or everything succeeded. -/
inductive IngestOutcome
  | commitFailed
  | upsertFailed
  | success
deriving Repr, DecidableEq

/-- The store state after the single `s.commit()` of `ingest_file`: all
metadata rows are added in one transaction, the Vector Index untouched. -/
def committedWorld (m : SentenceTransformer) (uuidGen : Nat → Nat)
    (now : Nat) (pathName slug : String) (text : List Char)
    (w : World) : World :=
  { meta := w.meta ++ ingestEmbeds m uuidGen now pathName slug text,
    qdrant := w.qdrant }

/-- The store state after `upload_collection`: the upsert entries are
added to the Vector Index. -/
def uploadedWorld (m : SentenceTransformer) (uuidGen : Nat → Nat)
    (now : Nat) (pathName slug : String) (text : List Char)
    (w : World) : World :=
  { meta := (committedWorld m uuidGen now pathName slug text w).meta,
    qdrant := w.qdrant ++ ingestUploadEntries m uuidGen now pathName slug text }

/-- The sequence of store states observable during one `ingest_file`
invocation on extracted text `text`, for each possible outcome.  The
metadata commit is atomic (a failed transaction rolls back), so the
commit-failure trace contains no intermediate state. -/
def ingestStates (m : SentenceTransformer) (uuidGen : Nat → Nat) (now : Nat)
    (pathName slug : String) (text : List Char) (w : World) :
    IngestOutcome → List World
  | .commitFailed => [w]
  | .upsertFailed => [w, committedWorld m uuidGen now pathName slug text w]
  | .success => [w, committedWorld m uuidGen now pathName slug text w,
                 uploadedWorld m uuidGen now pathName slug text w]

/-- A vector never exists in the index without a metadata row under the
same identifier. -/
def VecMetaInv (w : World) : Prop :=
  ∀ e ∈ w.qdrant, ∃ r ∈ w.meta, r.id = e.1

/-! #### Ingestion loop lemmas -/

section Ingestion

variable (m : SentenceTransformer) (uuidGen : Nat → Nat) (now : Nat)
variable (pathName slug : String)

theorem ingestLoop_lengths : ∀ (i : Nat) (cs : List (List Char)),
    (ingestLoop m uuidGen now pathName slug i cs).1.length = cs.length
    ∧ (ingestLoop m uuidGen now pathName slug i cs).2.1.length = cs.length
    ∧ (ingestLoop m uuidGen now pathName slug i cs).2.2.length = cs.length := by
  intro i cs
  induction cs generalizing i with
  | nil => simp [ingestLoop]
  | cons chunk rest ih =>
    have h := ih (i + 1)
    simp only [ingestLoop, List.length_cons]
    exact ⟨by rw [h.1], by rw [h.2.1], by rw [h.2.2]⟩

/-- The row identifiers drawn by the loop are the consecutive values of
the UUID stream, in order. -/
theorem ingestLoop_ids : ∀ (i : Nat) (cs : List (List Char)),
    (ingestLoop m uuidGen now pathName slug i cs).2.1.map (fun e => e.id)
      = (List.range' i cs.length).map uuidGen := by
  intro i cs
  induction cs generalizing i with
  | nil => simp [ingestLoop]
  | cons chunk rest ih =>
    simp only [ingestLoop, List.length_cons, List.range', List.map_cons]
    rw [ih (i + 1)]

/-- Positional contents of the three lists built by the loop. -/
theorem ingestLoop_get? : ∀ (i j : Nat) (cs : List (List Char)),
    ((ingestLoop m uuidGen now pathName slug i cs).1.get? j
      = (cs.get? j).map (fun chunk => m.encode chunk))
    ∧ ((ingestLoop m uuidGen now pathName slug i cs).2.1.get? j
      = (cs.get? j).map (fun chunk =>
          { id := uuidGen (i + j), object_type := "doc_chunk",
            object_id := slug ++ ":" ++ pathName, vector := [],
            dim := (m.encode chunk).length, created_at := now }))
    ∧ ((ingestLoop m uuidGen now pathName slug i cs).2.2.get? j
      = (cs.get? j).map (fun chunk =>
          [("text", chunk.asString), ("source", pathName),
           ("domain", slug)])) := by
  intro i j cs
  induction cs generalizing i j with
  | nil => simp [ingestLoop]
  | cons chunk rest ih =>
    cases j with
    | zero => simp [ingestLoop]
    | succ j' =>
      have h := ih (i + 1) j'
      have harith : i + 1 + j' = i + (j' + 1) := by omega
      rw [harith] at h
      simp only [ingestLoop, List.get?_cons_succ]
      exact h

/-- Every payload built by the loop carries the slug under `"domain"`,
the file name under `"source"`, and the text of one of the chunks. -/
theorem ingestLoop_payloads_mem : ∀ (i : Nat) (cs : List (List Char)),
    ∀ p ∈ (ingestLoop m uuidGen now pathName slug i cs).2.2,
      p.lookup "domain" = some slug ∧ p.lookup "source" = some pathName
      ∧ ∃ chunk ∈ cs, p.lookup "text" = some chunk.asString := by
  intro i cs
  induction cs generalizing i with
  | nil => simp [ingestLoop]
  | cons chunk rest ih =>
    intro p hp
    simp only [ingestLoop] at hp
    rcases List.mem_cons.mp hp with h | h
    · subst h
      refine ⟨?_, ?_, chunk, by simp, ?_⟩ <;> simp [List.lookup]
    · obtain ⟨h1, h2, chunk', hc', h3⟩ := ih (i + 1) p h
      exact ⟨h1, h2, chunk', by simp [hc'], h3⟩

/-- Every row built by the loop is a `doc_chunk` row for
`slug ++ ":" ++ pathName`, with empty vector bytes, the shared creation
timestamp, and the dimensionality of one of the chunks' vectors. -/
theorem ingestLoop_embeds_mem : ∀ (i : Nat) (cs : List (List Char)),
    ∀ r ∈ (ingestLoop m uuidGen now pathName slug i cs).2.1,
      r.object_type = "doc_chunk" ∧ r.object_id = slug ++ ":" ++ pathName
      ∧ r.vector = [] ∧ r.created_at = now
      ∧ ∃ chunk ∈ cs, r.dim = (m.encode chunk).length := by
  intro i cs
  induction cs generalizing i with
  | nil => simp [ingestLoop]
  | cons chunk rest ih =>
    intro r hr
    simp only [ingestLoop] at hr
    rcases List.mem_cons.mp hr with h | h
    · subst h
      exact ⟨rfl, rfl, rfl, rfl, chunk, by simp, rfl⟩
    · obtain ⟨h1, h2, h3, h4, chunk', hc', h5⟩ := ih (i + 1) r h
      exact ⟨h1, h2, h3, h4, chunk', by simp [hc'], h5⟩

end Ingestion

/-- A concrete model used to instantiate theorems with hypotheses: the
configured dimensionality, constant vectors. -/
def mWitness : SentenceTransformer :=
  { dim := DIM, encode := fun _ => List.replicate DIM 0 }

/-- C1: every invocation of `ingest_file` writes all Metadata Store rows
in a single transaction that commits before any vector is upserted, so
(a) in every observable store state the vector-implies-row invariant
`VecMetaInv` is preserved, (b) any state whose Vector Index differs from
the initial one already contains the complete batch of new metadata rows,
and (c) if the upsert step fails after commit, the resulting state has a
metadata row (the first new row) with no corresponding vector. -/
theorem ingest_metadata_before_vectors (m : SentenceTransformer)
    (uuidGen : Nat → Nat) (now : Nat) (pathName slug : String)
    (text : List Char) (w : World) (outcome : IngestOutcome)
    (hInv : VecMetaInv w) :
    (∀ s ∈ ingestStates m uuidGen now pathName slug text w outcome,
      VecMetaInv s)
    ∧ (∀ s ∈ ingestStates m uuidGen now pathName slug text w outcome,
        s.qdrant ≠ w.qdrant →
          s.meta = w.meta ++ ingestEmbeds m uuidGen now pathName slug text)
    ∧ (_chunks text ≠ [] → (∀ e ∈ w.qdrant, e.1 ≠ uuidGen 0) →
        committedWorld m uuidGen now pathName slug text w ∈
          ingestStates m uuidGen now pathName slug text w .upsertFailed
        ∧ ∃ r ∈ (committedWorld m uuidGen now pathName slug text w).meta,
            ∀ e ∈ (committedWorld m uuidGen now pathName slug text w).qdrant,
              e.1 ≠ r.id) := by
  have hcommitted : VecMetaInv (committedWorld m uuidGen now pathName slug text w) := by
    intro e he
    obtain ⟨r, hr, hid⟩ := hInv e he
    exact ⟨r, by simp [committedWorld, List.mem_append, hr], hid⟩
  have huploaded : VecMetaInv (uploadedWorld m uuidGen now pathName slug text w) := by
    intro e he
    rcases List.mem_append.mp he with h | h
    · obtain ⟨r, hr, hid⟩ := hInv e h
      exact ⟨r, by simp [uploadedWorld, committedWorld, List.mem_append, hr], hid⟩
    · obtain ⟨a, bc⟩ := e
      have ha : a ∈ ingestIds m uuidGen now pathName slug text :=
        (List.of_mem_zip h).1
      obtain ⟨r, hr, hid⟩ := List.mem_map.mp ha
      exact ⟨r, by simp [uploadedWorld, committedWorld, List.mem_append,
        ingestEmbeds] at hr ⊢; exact Or.inr hr, hid⟩
  refine ⟨?_, ?_, ?_⟩
  · intro s hs
    cases outcome with
    | commitFailed =>
      rcases List.mem_singleton.mp hs with h
      rw [h]; exact hInv
    | upsertFailed =>
      rcases List.mem_cons.mp hs with h | h
      · rw [h]; exact hInv
      · rw [List.mem_singleton.mp h]; exact hcommitted
    | success =>
      rcases List.mem_cons.mp hs with h | h
      · rw [h]; exact hInv
      · rcases List.mem_cons.mp h with h2 | h2
        · rw [h2]; exact hcommitted
        · rw [List.mem_singleton.mp h2]; exact huploaded
  · intro s hs hne
    cases outcome with
    | commitFailed =>
      rcases List.mem_singleton.mp hs with h
      exact absurd (by rw [h]) hne
    | upsertFailed =>
      rcases List.mem_cons.mp hs with h | h
      · exact absurd (by rw [h]) hne
      · rw [List.mem_singleton.mp h]; rfl
    | success =>
      rcases List.mem_cons.mp hs with h | h
      · exact absurd (by rw [h]) hne
      · rcases List.mem_cons.mp h with h2 | h2
        · rw [h2]; rfl
        · rw [List.mem_singleton.mp h2]; rfl
  · intro hchunks hfresh
    refine ⟨by simp [ingestStates], ?_⟩
    cases hc : _chunks text with
    | nil => exact absurd hc hchunks
    | cons chunk rest =>
      refine ⟨{ id := uuidGen 0, object_type := "doc_chunk",
                object_id := slug ++ ":" ++ pathName, vector := [],
                dim := (m.encode chunk).length, created_at := now }, ?_, ?_⟩
      · simp only [committedWorld, List.mem_append]
        right
        simp only [ingestEmbeds, hc, ingestLoop]
        exact List.mem_cons_self _ _
      · intro e he
        have he' : e ∈ w.qdrant := he
        exact hfresh e he'

/-- Witness for C1: a concrete ingestion of the two-character text
`"hi"` into empty stores, where the upsert step fails after commit. -/
theorem ingest_metadata_before_vectors_witness :
    ∃ r ∈ (committedWorld mWitness (fun i => i) 0 "a.md" "s" "hi".toList
        ⟨[], []⟩).meta,
      ∀ e ∈ (committedWorld mWitness (fun i => i) 0 "a.md" "s" "hi".toList
          ⟨[], []⟩).qdrant, e.1 ≠ r.id :=
  ((ingest_metadata_before_vectors mWitness (fun i => i) 0 "a.md" "s"
      "hi".toList ⟨[], []⟩ .upsertFailed
      (fun e he => absurd he (List.not_mem_nil e))).2.2
    (by decide) (fun e he => absurd he (List.not_mem_nil e))).2

/-- C2: for a successful ingestion, the number of Metadata Store rows
equals the number of Vector Index entries, which equals the number of
chunks; the sequence of identifiers keying the index entries is exactly
the sequence of row identifiers, in order (one pair per chunk under the
same identifier); and when the UUID stream is injective (uuid4 freshness)
the identifiers are pairwise distinct. -/
theorem ingest_row_entry_counts_ids (m : SentenceTransformer)
    (uuidGen : Nat → Nat) (now : Nat) (pathName slug : String)
    (text : List Char) :
    (ingestEmbeds m uuidGen now pathName slug text).length
      = (_chunks text).length
    ∧ (ingestUploadEntries m uuidGen now pathName slug text).length
      = (_chunks text).length
    ∧ (ingestUploadEntries m uuidGen now pathName slug text).map Prod.fst
      = (ingestEmbeds m uuidGen now pathName slug text).map (fun e => e.id)
    ∧ (Function.Injective uuidGen →
        ((ingestEmbeds m uuidGen now pathName slug text).map
          (fun e => e.id)).Nodup) := by
  obtain ⟨hv', he', hp'⟩ :=
    ingestLoop_lengths m uuidGen now pathName slug 0 (_chunks text)
  have hV : (ingestVecs m uuidGen now pathName slug text).length
      = (_chunks text).length := hv'
  have hE : (ingestEmbeds m uuidGen now pathName slug text).length
      = (_chunks text).length := he'
  have hP : (ingestPayloads m uuidGen now pathName slug text).length
      = (_chunks text).length := hp'
  have hI : (ingestIds m uuidGen now pathName slug text).length
      = (_chunks text).length := by
    rw [ingestIds, List.length_map, hE]
  refine ⟨hE, ?_, ?_, ?_⟩
  · rw [ingestUploadEntries, List.length_zip, List.length_zip,
      hI, hV, hP, Nat.min_self, Nat.min_self]
  · rw [ingestUploadEntries, List.map_fst_zip]
    · rfl
    · rw [List.length_zip, hI, hV, hP, Nat.min_self]
  · intro hinj
    have h := ingestLoop_ids m uuidGen now pathName slug 0 (_chunks text)
    simp only [ingestEmbeds] at h ⊢
    rw [h]
    exact (List.nodup_range' 0 (_chunks text).length).map hinj

/-- Witness for C2: distinct identifiers under the identity UUID stream
for a concrete ingestion. -/
theorem ingest_row_entry_counts_ids_witness :
    ((ingestEmbeds mWitness (fun i => i) 0 "a.md" "s" "hi".toList).map
      (fun e => e.id)).Nodup :=
  (ingest_row_entry_counts_ids mWitness (fun i => i) 0 "a.md" "s"
    "hi".toList).2.2.2 (fun _ _ h => h)

/-- C7 (amended): for every ingested chunk, exactly one Metadata Store row
is created, positionally: the `j`-th row exists iff the `j`-th chunk does,
and carries the `j`-th fresh identifier, the `object_type` tag
`"doc_chunk"`, the single combined column `object_id = "{slug}:{path.name}"`
(domain and source file name joined by `":"`, not two separate columns),
empty vector bytes, the dimensionality of that chunk's vector, and the
creation timestamp; under an injective UUID stream the identifiers are
pairwise distinct (unique). -/
theorem metadata_row_per_chunk (m : SentenceTransformer)
    (uuidGen : Nat → Nat) (now : Nat) (pathName slug : String)
    (text : List Char) :
    (ingestEmbeds m uuidGen now pathName slug text).length
      = (_chunks text).length
    ∧ (∀ j : Nat, (ingestEmbeds m uuidGen now pathName slug text).get? j
        = ((_chunks text).get? j).map (fun chunk =>
            { id := uuidGen j, object_type := "doc_chunk",
              object_id := slug ++ ":" ++ pathName, vector := [],
              dim := (m.encode chunk).length, created_at := now }))
    ∧ (Function.Injective uuidGen →
        ((ingestEmbeds m uuidGen now pathName slug text).map
          (fun e => e.id)).Nodup) := by
  refine ⟨(ingestLoop_lengths m uuidGen now pathName slug 0 (_chunks text)).2.1,
    ?_, ?_⟩
  · intro j
    have h := (ingestLoop_get? m uuidGen now pathName slug 0 j (_chunks text)).2.1
    simpa [Nat.zero_add] using h
  · intro hinj
    have h := ingestLoop_ids m uuidGen now pathName slug 0 (_chunks text)
    simp only [ingestEmbeds] at h ⊢
    rw [h]
    exact (List.nodup_range' 0 (_chunks text).length).map hinj

/-- Witness for C7 (amended): a concrete two-character ingestion under the
identity UUID stream has pairwise distinct row identifiers. -/
theorem metadata_row_per_chunk_witness :
    ((ingestEmbeds mWitness (fun i => i) 7 "b.md" "t" "ok".toList).map
      (fun e => e.id)).Nodup :=
  (metadata_row_per_chunk mWitness (fun i => i) 7 "b.md" "t"
    "ok".toList).2.2 (fun _ _ h => h)

set_option maxRecDepth 10000 in
/-- Counterexample for C7 as stated: the Metadata Store row does not carry
separate `domain` and `source file name` columns.  Ingesting file
`"z.md"` under domain `"x:y"` and ingesting file `"y:z.md"` under domain
`"x"` produce *identical* rows (`object_id = "x:y:z.md"` in both), so no
reading of the row can recover the domain slug, and a fortiori the row
carries no domain column. -/
theorem metadata_domain_column_counterexample :
    (ingestEmbeds mWitness (fun i => i) 0 "z.md" "x:y" "a".toList
      = ingestEmbeds mWitness (fun i => i) 0 "y:z.md" "x" "a".toList)
    ∧ ¬ ∃ getDomain : Embedding → String,
        ∀ (m : SentenceTransformer) (uuidGen : Nat → Nat) (now : Nat)
          (pathName slug : String) (text : List Char),
          ∀ r ∈ ingestEmbeds m uuidGen now pathName slug text,
            getDomain r = slug := by
  refine ⟨by decide, ?_⟩
  rintro ⟨f, hf⟩
  have h1 := hf mWitness (fun i => i) 0 "z.md" "x:y" "a".toList
    { id := 0, object_type := "doc_chunk", object_id := "x:y:z.md",
      vector := [], dim := DIM, created_at := 0 } (by decide)
  have h2 := hf mWitness (fun i => i) 0 "y:z.md" "x" "a".toList
    { id := 0, object_type := "doc_chunk", object_id := "x:y:z.md",
      vector := [], dim := DIM, created_at := 0 } (by decide)
  have : ("x:y" : String) = "x" := h1.symm.trans h2
  exact absurd this (by decide)

/-! ### C8: dimensionality at Embedding Provider initialization -/

/-- A model whose output dimensionality differs from the configured `DIM`. -/
def smallModel : SentenceTransformer :=
  { dim := 3, encode := fun _ => [0, 0, 0] }

/-- Counterexample for C8 as stated: `_get_model` contains no assertion
comparing `DIM` with the model's actual output vector length.  Loading a
model of dimensionality 3 (≠ `DIM = 384`) succeeds and returns that model
unchanged; no fatal configuration error is raised at initialization. -/
theorem embedding_dim_assertion_counterexample :
    smallModel.dim ≠ DIM
    ∧ _get_model none smallModel = .ok (some smallModel, smallModel) :=
  ⟨by decide, rfl⟩

/-- C8 (amended): Embedding Provider initialization performs no
dimensionality check at all: it returns the cached model if one exists
and otherwise loads and returns the model from disk, succeeding in every
case — in particular even when the model's output length differs from the
configured constant, so a mismatch is not detected at startup. -/
theorem get_model_no_dim_check (loaded : Option SentenceTransformer)
    (disk : SentenceTransformer) :
    (loaded = none → _get_model loaded disk = .ok (some disk, disk))
    ∧ (∀ mm, loaded = some mm → _get_model loaded disk = .ok (some mm, mm))
    ∧ (disk.dim ≠ DIM → (_get_model none disk).isOk = true) := by
  refine ⟨?_, ?_, ?_⟩
  · intro h; rw [h]; rfl
  · intro mm h; rw [h]; rfl
  · intro _; rfl

/-- Witness for C8 (amended): initialization succeeds for the
dimensionality-3 model. -/
theorem get_model_no_dim_check_witness :
    (_get_model none smallModel).isOk = true :=
  (get_model_no_dim_check none smallModel).2.2 (by decide)

/-! ### C4: collection provisioning (`_get_qdrant`, embedder.py 47-69)

```python
def _get_qdrant():
    global _qdrant
    if _qdrant is None:
        _qdrant = QdrantClient(...)
        try:
            _qdrant.get_collection(COLLECTION)
        except UnexpectedResponse:
            _qdrant.recreate_collection(COLLECTION,
                vectors_config=models.VectorParams(size=DIM,
                    distance=models.Distance.COSINE))
    return _qdrant
```
The server state is the configuration of the `COLLECTION` collection if
it exists (`none` = absent); `cached` is whether the process-wide
`_qdrant` singleton is already set. -/

/-- Qdrant distance metrics. -/
inductive Distance
  | cosine
  | euclid
  | dot
deriving Repr, DecidableEq

/-- Collection configuration (`models.VectorParams`). -/
structure VectorParams where
  size : Nat
  distance : Distance
deriving Repr, DecidableEq

/-- Modelled from the Qdrant client as used by the code:
`get_collection` returns the collection info when the collection exists
and raises `UnexpectedResponse` (the error branch) when it is absent. -/
def get_collection (st : Option VectorParams) : Except Unit VectorParams :=
  match st with
  | some cfg => .ok cfg
  | none => .error ()

/-- Modelled from the Qdrant client as used by the code:
`recreate_collection` drops the collection if present and creates it
afresh with the given configuration. -/
def recreate_collection (_st : Option VectorParams) (cfg : VectorParams) :
    Option VectorParams :=
  some cfg

/-- `_get_qdrant`: returns `(singleton set, new server state)`. -/
def _get_qdrant (cached : Bool) (st : Option VectorParams) :
    Bool × Option VectorParams :=
  if cached then (true, st)
  else
    match get_collection st with
    | .ok _ => (true, st)
    | .error _ =>
      (true, recreate_collection st { size := DIM, distance := Distance.cosine })

/-- C4: collection provisioning is idempotent — a second invocation of
`_get_qdrant` leaves the collection configuration exactly as the first
call left it; an already-existing collection is left unchanged (treated
as success: the client handle is returned in every case and the
`UnexpectedResponse` of the existence probe is the only caught error);
a fresh process facing an absent collection creates it with the
configured dimensionality `DIM` and the cosine metric; and the
collection is never deleted (the state can only be collection-free
afterwards if it already was before). -/
theorem ensure_collection_idempotent (cached : Bool)
    (st : Option VectorParams) :
    ((_get_qdrant (_get_qdrant cached st).1 (_get_qdrant cached st).2).2
      = (_get_qdrant cached st).2)
    ∧ ((_get_qdrant cached st).1 = true)
    ∧ (∀ cfg, st = some cfg → (_get_qdrant cached st).2 = some cfg)
    ∧ (cached = false → st = none →
        (_get_qdrant cached st).2
          = some { size := DIM, distance := Distance.cosine })
    ∧ ((_get_qdrant cached st).2 = none → st = none) := by
  refine ⟨?_, ?_, ?_, ?_, ?_⟩ <;>
    cases cached <;> cases st <;>
      simp [_get_qdrant, get_collection, recreate_collection]

/-- Witness for C4: a pre-existing collection with a different
configuration is preserved, and a fresh process creates the collection
with `DIM` and cosine. -/
theorem ensure_collection_idempotent_witness :
    ((_get_qdrant false (some { size := 10, distance := Distance.dot })).2
      = some { size := 10, distance := Distance.dot })
    ∧ ((_get_qdrant false none).2
      = some { size := DIM, distance := Distance.cosine }) :=
  ⟨(ensure_collection_idempotent false
      (some { size := 10, distance := Distance.dot })).2.2.1 _ rfl,
   (ensure_collection_idempotent false none).2.2.2.1 rfl rfl⟩

/-! ### Query Service: `search` (`api/routers/search.py`)

```python
@router.get("/", response_model=List[Chunk])
def search(
    q: str = Query(..., min_length=2),
    slug: str = Query(..., min_length=1),
    k: int = Query(5, ge=1, le=50),
):
    model = _get_model()
    qdrant = _get_qdrant()
    vec = model.encode(q).tolist()
    flt = models.Filter(must=[models.FieldCondition(
        key="domain", match=models.MatchValue(value=slug))])
    res = qdrant.search(collection_name=COLLECTION, query_vector=vec,
                        limit=k, with_payload=True, query_filter=flt)
    hits: List[Chunk] = []
    for p in res:
        payload = p.payload or {}
        hits.append(Chunk(id=str(p.id), text=payload.get("text", ""),
                          source=payload.get("source", ""), score=p.score))
    return hits
```
-/

/-- A point returned by Qdrant search (`ScoredPoint`): identifier,
optional payload, similarity score (floats abstracted to `Int`). -/
structure ScoredPoint where
  id : Nat
  payload : Option (List (String × String))
  score : Int
deriving Repr, DecidableEq

/-- Modelled from the spec (§4.4) for the external Qdrant server: search
returns up to `limit` nearest entries by similarity among the entries
whose `domain` payload attribute equals `flt` exactly (the
`FieldCondition(key="domain", match=MatchValue(value=slug))` filter the
handler passes); `sim` is the index's similarity scoring and the
nearest-first ordering is a sort on the score. -/
def qdrant_search (sim : List Int → List Int → Int)
    (coll : List (Nat × List Int × List (String × String)))
    (queryVec : List Int) (limit : Nat) (flt : String) : List ScoredPoint :=
  (((coll.filter (fun e => e.2.2.lookup "domain" == some flt)).map
      (fun e => { id := e.1, payload := some e.2.2,
                  score := sim queryVec e.2.1 : ScoredPoint }))
    |>.mergeSort (fun a b => decide (b.score ≤ a.score))).take limit

/-- The response model `Chunk` of `search.py` (`score` abstracted like
all similarity values). -/
structure Chunk where
  id : String
  text : String
  source : String
  score : Int
deriving Repr, DecidableEq

/-- The response shaping of one point (`search.py` lines 59-66):
`payload = p.payload or {}`, then `payload.get("text", "")` and
`payload.get("source", "")`, and `id=str(p.id)`. -/
def toChunk (p : ScoredPoint) : Chunk :=
  { id := toString p.id,
    text := ((p.payload.getD []).lookup "text").getD "",
    source := ((p.payload.getD []).lookup "source").getD "",
    score := p.score }

/-- The result-mapping loop: one `Chunk` appended per returned point, in
iteration order. -/
def buildHits : List ScoredPoint → List Chunk
  | [] => []
  | p :: ps => toChunk p :: buildHits ps

/-- One event per external call the handler makes. -/
inductive SearchEvent
  | embedCall
  | qdrantCall
deriving Repr, DecidableEq

/-- The `GET /` search handler.  FastAPI evaluates the declared
constraints (`min_length=2` on `q`, `min_length=1` on `slug`, `ge=1`,
`le=50` on `k`) before the body runs and rejects violations with a 422
response without entering the body (modelled from the framework
semantics the declarations in lines 20-23 rely on); the body then embeds
the query, performs the filtered search and shapes the hits.  The event
list records the external calls made, in order. -/
def search (m : SentenceTransformer) (sim : List Int → List Int → Int)
    (coll : List (Nat × List Int × List (String × String)))
    (q : List Char) (slug : String) (k : Nat) :
    List SearchEvent × Except Nat (List Chunk) :=
  if 2 ≤ q.length ∧ 1 ≤ slug.length ∧ 1 ≤ k ∧ k ≤ 50 then
    ([.embedCall, .qdrantCall],
     .ok (buildHits (qdrant_search sim coll (m.encode q) k slug)))
  else
    ([], .error 422)

/-- A trivial similarity scoring used to instantiate witnesses. -/
def simWitness : List Int → List Int → Int := fun _ _ => 0

theorem buildHits_eq_map (res : List ScoredPoint) :
    buildHits res = res.map toChunk := by
  induction res with
  | nil => rfl
  | cons p ps ih => rw [buildHits, List.map_cons, ih]

/-- C9: invalid query inputs — query shorter than 2 characters, empty
domain slug, or `k` outside 1..50 — are rejected with a 422 before any
work happens: the handler makes no embedding call and no search call
(empty event list) and returns the validation error. -/
theorem invalid_query_rejected_before_work (m : SentenceTransformer)
    (sim : List Int → List Int → Int)
    (coll : List (Nat × List Int × List (String × String)))
    (q : List Char) (slug : String) (k : Nat)
    (h : q.length < 2 ∨ slug.length < 1 ∨ k < 1 ∨ 50 < k) :
    search m sim coll q slug k = ([], .error 422) := by
  rw [search, if_neg]
  intro ⟨h1, h2, h3, h4⟩
  omega

/-- Witness for C9: a one-character query is rejected with no calls. -/
theorem invalid_query_rejected_before_work_witness :
    search mWitness simWitness [] "a".toList "s" 5 = ([], .error 422) :=
  invalid_query_rejected_before_work mWitness simWitness [] "a".toList "s" 5
    (by decide)

/-- C5: for a valid request, the handler returns hits, and every
returned point of the underlying filtered search originates from a
collection entry whose `domain` payload attribute equals the requested
slug exactly; consequently no returned point carries any other domain
`B ≠ slug`, and every response hit is the shaping of such a point. -/
theorem search_domain_isolation (m : SentenceTransformer)
    (sim : List Int → List Int → Int)
    (coll : List (Nat × List Int × List (String × String)))
    (q : List Char) (slug : String) (k : Nat)
    (hq : 2 ≤ q.length) (hs : 1 ≤ slug.length) (hk1 : 1 ≤ k) (hk2 : k ≤ 50) :
    ((search m sim coll q slug k).2
      = .ok (buildHits (qdrant_search sim coll (m.encode q) k slug)))
    ∧ (∀ p ∈ qdrant_search sim coll (m.encode q) k slug,
        ∃ e ∈ coll, p = { id := e.1, payload := some e.2.2,
                          score := sim (m.encode q) e.2.1 : ScoredPoint }
          ∧ e.2.2.lookup "domain" = some slug)
    ∧ (∀ p ∈ qdrant_search sim coll (m.encode q) k slug,
        ∀ other : String, other ≠ slug →
          (p.payload.getD []).lookup "domain" ≠ some other)
    ∧ (∀ h ∈ buildHits (qdrant_search sim coll (m.encode q) k slug),
        ∃ p ∈ qdrant_search sim coll (m.encode q) k slug, h = toChunk p) := by
  have hmem : ∀ p ∈ qdrant_search sim coll (m.encode q) k slug,
      ∃ e ∈ coll, p = { id := e.1, payload := some e.2.2,
                        score := sim (m.encode q) e.2.1 : ScoredPoint }
        ∧ e.2.2.lookup "domain" = some slug := by
    intro p hp
    have h1 := List.mem_of_mem_take hp
    have h2 := List.mem_mergeSort.mp h1
    obtain ⟨e, he, hpe⟩ := List.mem_map.mp h2
    obtain ⟨hec, hed⟩ := List.mem_filter.mp he
    refine ⟨e, hec, hpe.symm, ?_⟩
    exact eq_of_beq hed
  refine ⟨?_, hmem, ?_, ?_⟩
  · rw [search, if_pos ⟨hq, hs, hk1, hk2⟩]
  · intro p hp other hother
    obtain ⟨e, _, hpe, hdom⟩ := hmem p hp
    rw [hpe]
    simp only [Option.getD_some]
    rw [hdom]
    intro hcon
    exact hother (by injection hcon with h; exact h.symm) 
  · intro h hh
    rw [buildHits_eq_map] at hh
    obtain ⟨p, hp, hph⟩ := List.mem_map.mp hh
    exact ⟨p, hp, hph.symm⟩

/-- A concrete two-domain collection used to instantiate C5. -/
def collWitness : List (Nat × List Int × List (String × String)) :=
  [(1, [1], [("text", "t1"), ("source", "f1"), ("domain", "A")]),
   (2, [2], [("text", "t2"), ("source", "f2"), ("domain", "B")])]

/-- Witness for C5: a concrete valid query against domain `"A"` over a
collection that also holds a `"B"` entry succeeds with the shaped hits
of the domain-filtered search. -/
theorem search_domain_isolation_witness :
    (search mWitness simWitness collWitness "hi".toList "A" 5).2
      = .ok (buildHits (qdrant_search simWitness collWitness
          (mWitness.encode "hi".toList) 5 "A")) :=
  (search_domain_isolation mWitness simWitness collWitness "hi".toList "A" 5
    (by decide) (by decide) (by decide) (by decide)).1

/-- C10: the response shaping is total and order-preserving: one hit per
returned point, positionally the shaping of that point; a point with an
absent payload yields a hit with empty text and source (and the string
form of its identifier) rather than a failure, and a present payload
lacking the `"text"` or `"source"` key yields the empty string for that
field. -/
theorem hits_total_ordered_defaults (res : List ScoredPoint) :
    (buildHits res).length = res.length
    ∧ (∀ j : Nat, (buildHits res).get? j = (res.get? j).map toChunk)
    ∧ (∀ p : ScoredPoint, p.payload = none →
        toChunk p = { id := toString p.id, text := "", source := "",
                      score := p.score })
    ∧ (∀ p : ScoredPoint, ∀ kvs, p.payload = some kvs →
        kvs.lookup "text" = none → (toChunk p).text = "")
    ∧ (∀ p : ScoredPoint, ∀ kvs, p.payload = some kvs →
        kvs.lookup "source" = none → (toChunk p).source = "") := by
  refine ⟨?_, ?_, ?_, ?_, ?_⟩
  · rw [buildHits_eq_map, List.length_map]
  · intro j
    rw [buildHits_eq_map, List.get?_map]
  · intro p hp
    simp [toChunk, hp]
  · intro p kvs hp hk
    simp [toChunk, hp, hk]
  · intro p kvs hp hk
    simp [toChunk, hp, hk]

/-- Witness for C10: a payload-free point shapes to empty text and
source without failing. -/
theorem hits_total_ordered_defaults_witness :
    toChunk { id := 5, payload := none, score := 0 }
      = { id := toString 5, text := "", source := "", score := 0 } :=
  (hits_total_ordered_defaults []).2.2.1
    { id := 5, payload := none, score := 0 } rfl

/-! ### C6: Scenario 1 — a 1024-character Markdown file, chunk size 512

`ingest_file` extracts non-PDF files via `_md.render(path.read_text())`,
where `_md` is `markdown_it.MarkdownIt("commonmark")` with the
front-matter plugin: the extracted text is the CommonMark *HTML
rendering* of the file, not the file's characters. -/

/-- Modelled from the spec (§4.1: "render it through a
CommonMark-compliant parser … and produce its rendered text"), for the
external `markdown_it` renderer, specialised to inputs that are a single
line of plain text with no markup, no blank lines and no front-matter
block: per the CommonMark spec such a document is one paragraph and
renders as `<p>…</p>` followed by a newline. -/
def mdRenderParagraph (s : List Char) : List Char :=
  ("<p>".toList) ++ s ++ ("</p>\n".toList)

/-- The 1024-character Markdown file of Scenario 1. -/
def c6File : List Char := List.replicate 1024 'a'

set_option maxRecDepth 100000 in
/-- Counterexample for C6 as stated: ingesting a 1024-character Markdown
file does *not* produce 2 rows and 2 entries.  The CommonMark rendering
wraps the text in paragraph markup, so the chunked text of the
1024-character file `c6File` has 1031 characters and yields 3 chunks,
hence 3 Metadata Store rows and 3 Vector Index entries. -/
theorem scenario1_counterexample :
    c6File.length = 1024
    ∧ (clean (mdRenderParagraph c6File)).length = 1031
    ∧ (ingestEmbeds mWitness (fun i => i) 0 "doc.md" "stats"
        (mdRenderParagraph c6File)).length = 3
    ∧ (ingestUploadEntries mWitness (fun i => i) 0 "doc.md" "stats"
        (mdRenderParagraph c6File)).length = 3 := by
  have hclean : (clean (mdRenderParagraph c6File)).length = 1031 := by decide
  have hne : clean (mdRenderParagraph c6File) ≠ [] := by
    intro heq
    rw [heq] at hclean
    simp at hclean
  have hchunks : (_chunks (mdRenderParagraph c6File)).length = 3 := by
    rw [_chunks, sliceChunks_length _ hne, hclean]
    rfl
  have h := ingest_row_entry_counts_ids mWitness (fun i => i) 0 "doc.md"
    "stats" (mdRenderParagraph c6File)
  exact ⟨by decide, hclean, h.1.trans hchunks, h.2.1.trans hchunks⟩

/-- C6 (amended): ingesting a Markdown file whose rendered,
whitespace-normalized text has exactly 1024 characters, with chunk size
512, produces exactly 2 Metadata Store rows and 2 Vector Index entries,
and every upserted entry's payload carries the given slug under
`"domain"`. -/
theorem scenario1_amended (m : SentenceTransformer) (uuidGen : Nat → Nat)
    (now : Nat) (pathName slug : String) (content : List Char)
    (h : (clean (mdRenderParagraph content)).length = 1024) :
    (ingestEmbeds m uuidGen now pathName slug
        (mdRenderParagraph content)).length = 2
    ∧ (ingestUploadEntries m uuidGen now pathName slug
        (mdRenderParagraph content)).length = 2
    ∧ (∀ entry ∈ ingestUploadEntries m uuidGen now pathName slug
          (mdRenderParagraph content),
        entry.2.2.lookup "domain" = some slug) := by
  have hne : clean (mdRenderParagraph content) ≠ [] := by
    intro heq
    rw [heq] at h
    simp at h
  have hchunks : (_chunks (mdRenderParagraph content)).length = 2 := by
    rw [_chunks, sliceChunks_length _ hne, h]
    rfl
  have hcnt := ingest_row_entry_counts_ids m uuidGen now pathName slug
    (mdRenderParagraph content)
  refine ⟨hcnt.1.trans hchunks, hcnt.2.1.trans hchunks, ?_⟩
  intro entry hentry
  obtain ⟨a, v, p⟩ := entry
  have h1 := (List.of_mem_zip hentry).2
  have h2 := (List.of_mem_zip h1).2
  exact (ingestLoop_payloads_mem m uuidGen now pathName slug 0
    (_chunks (mdRenderParagraph content)) p h2).1

set_option maxRecDepth 100000 in
/-- Witness for C6 (amended): a single-paragraph Markdown file of 1017
characters renders to a 1024-character normalized text and yields
exactly 2 rows. -/
theorem scenario1_amended_witness :
    (ingestEmbeds mWitness (fun i => i) 0 "doc.md" "stats"
      (mdRenderParagraph (List.replicate 1017 'a'))).length = 2 :=
  (scenario1_amended mWitness (fun i => i) 0 "doc.md" "stats"
    (List.replicate 1017 'a') (by decide)).1
